import Mathlib

/-
  Verification of the fastmd sidecar (Rust sources under src/engines/sidecar)
  against its natural-language specification.

  The Rust code is shallowly embedded: strings are lists of characters
  (Rust `String` is UTF-8; where byte counts or byte encodings matter we
  encode explicitly with `utf8Bytes`), machine integers are `Nat` reduced
  mod 2^32 where overflow can occur (SHA-256 words), fallible functions
  return `Except`/`Option`, and external collaborators (JSON/YAML codecs,
  the pulldown-cmark renderer) are parameters.
-/

set_option maxRecDepth 40000

/-! ### Generic list/string utilities -/

/-- True when `pat` begins the list (Rust `str::starts_with` / slice prefix
    test on characters). -/
def leadsWith : List Char → List Char → Bool
  | [], _ => true
  | _ :: _, [] => false
  | p :: ps, c :: cs => p == c && leadsWith ps cs

/-- True when `pat` occurs as a contiguous subsequence (Rust `str::contains`
    with a literal pattern). -/
def hasSeq (pat : List Char) : List Char → Bool
  | [] => leadsWith pat []
  | c :: rest => leadsWith pat (c :: rest) || hasSeq pat rest

/-- Fuel-driven worker for `strReplace`: non-overlapping, left-to-right
    replacement of `pat` by `rep`, as Rust `str::replace` for a nonempty
    pattern. `fuel` bounds the number of characters examined. -/
def replaceGo (pat rep : List Char) : Nat → List Char → List Char
  | _, [] => []
  | 0, l => l
  | fuel + 1, c :: rest =>
    if leadsWith pat (c :: rest) then
      rep ++ replaceGo pat rep fuel (List.drop pat.length (c :: rest))
    else c :: replaceGo pat rep fuel rest

/-- Rust `str::replace` (for the nonempty literal patterns used in the
    sidecar). -/
def strReplace (s pat rep : List Char) : List Char := replaceGo pat rep s.length s

/-- Rust `char::is_whitespace`: the Unicode White_Space property. -/
def isRustWhitespace (c : Char) : Bool :=
  let n := c.toNat
  (9 ≤ n && n ≤ 13) || n == 32 || n == 0x85 || n == 0xA0 || n == 0x1680 ||
  (0x2000 ≤ n && n ≤ 0x200A) || n == 0x2028 || n == 0x2029 || n == 0x202F ||
  n == 0x205F || n == 0x3000

/-- Rust `str::trim`. -/
def trimChars (l : List Char) : List Char :=
  ((l.dropWhile isRustWhitespace).reverse.dropWhile isRustWhitespace).reverse

/-- Rust `str::trim_start`. -/
def trimStartChars (l : List Char) : List Char := l.dropWhile isRustWhitespace

/-- Strip one trailing carriage return (helper for `rustLines`). -/
def stripCr (l : List Char) : List Char :=
  if l.getLast? = some '\r' then l.dropLast else l

/-- Rust `str::lines`: split at `\n` or `\r\n`; the final line ending is
    optional; a lone `\r` is not a terminator. -/
def rustLines (s : List Char) : List (List Char) :=
  let parts := s.splitOn '\n'
  let start := parts.dropLast.map stripCr
  let lastPart := parts.getLastD []
  if lastPart = [] then start else start ++ [lastPart]

/-- True when `suf` ends the list (Rust `str::ends_with`). -/
def endsWithSeq (suf s : List Char) : Bool := leadsWith suf.reverse s.reverse

/-- Lexicographic order on character lists by code point. For valid UTF-8
    this coincides with the lexicographic byte order that Rust's
    `String::cmp` uses. -/
def strLtChars : List Char → List Char → Bool
  | _, [] => false
  | [], _ :: _ => true
  | a :: as, b :: bs => if a = b then strLtChars as bs else decide (a.toNat < b.toNat)

/-- UTF-8 encoding of one character (RFC 3629). -/
def utf8Bytes (c : Char) : List Nat :=
  let n := c.toNat
  if n < 0x80 then [n]
  else if n < 0x800 then [0xC0 ||| (n >>> 6), 0x80 ||| (n &&& 0x3F)]
  else if n < 0x10000 then
    [0xE0 ||| (n >>> 12), 0x80 ||| ((n >>> 6) &&& 0x3F), 0x80 ||| (n &&& 0x3F)]
  else
    [0xF0 ||| (n >>> 18), 0x80 ||| ((n >>> 12) &&& 0x3F),
     0x80 ||| ((n >>> 6) &&& 0x3F), 0x80 ||| (n &&& 0x3F)]

/-- The UTF-8 bytes of a string (Rust `str::as_bytes`). -/
def strBytes (s : String) : List Nat := (s.data.map utf8Bytes).flatten

/-- Fuel-driven worker for `chunksList`; `fuel` bounds the number of chunks,
    which is at most the list length when `c > 0`. -/
def chunksGo (c : Nat) : Nat → List α → List (List α)
  | _, [] => []
  | 0, _ :: _ => []
  | fuel + 1, x :: xs => (x :: xs).take c :: chunksGo c fuel ((x :: xs).drop c)

/-- Split a list into consecutive chunks of size `c`, the last possibly
    shorter: Rust `slice::chunks`. Rust requires `c > 0` (the one call site,
    `TaskBatch::split`, always passes `c ≥ 1`); we return `[]` at `c = 0`. -/
def chunksList (c : Nat) (l : List α) : List (List α) :=
  if c = 0 then [] else chunksGo c l.length l

/-! ### SHA-256 (the 256-bit digest used by `handle_compute_digest`),
     over byte lists, with 32-bit words as `Nat` mod 2^32 -/

def w32 (x : Nat) : Nat := x % 4294967296

def rotr32 (n x : Nat) : Nat := w32 ((x >>> n) ||| (x <<< (32 - n)))

def shaCh (x y z : Nat) : Nat := w32 ((x &&& y) ^^^ ((x ^^^ 4294967295) &&& z))

def shaMaj (x y z : Nat) : Nat := w32 ((x &&& y) ^^^ (x &&& z) ^^^ (y &&& z))

def bigSigma0 (x : Nat) : Nat := w32 (rotr32 2 x ^^^ rotr32 13 x ^^^ rotr32 22 x)

def bigSigma1 (x : Nat) : Nat := w32 (rotr32 6 x ^^^ rotr32 11 x ^^^ rotr32 25 x)

def smallSigma0 (x : Nat) : Nat := w32 (rotr32 7 x ^^^ rotr32 18 x ^^^ (x >>> 3))

def smallSigma1 (x : Nat) : Nat := w32 (rotr32 17 x ^^^ rotr32 19 x ^^^ (x >>> 10))

def shaK : List Nat :=
  [1116352408, 1899447441, 3049323471, 3921009573, 961987163,
   1508970993, 2453635748, 2870763221, 3624381080, 310598401,
   607225278, 1426881987, 1925078388, 2162078206, 2614888103,
   3248222580, 3835390401, 4022224774, 264347078, 604807628,
   770255983, 1249150122, 1555081692, 1996064986, 2554220882,
   2821834349, 2952996808, 3210313671, 3336571891, 3584528711,
   113926993, 338241895, 666307205, 773529912, 1294757372,
   1396182291, 1695183700, 1986661051, 2177026350, 2456956037,
   2730485921, 2820302411, 3259730800, 3345764771, 3516065817,
   3600352804, 4094571909, 275423344, 430227734, 506948616,
   659060556, 883997877, 958139571, 1322822218, 1537002063,
   1747873779, 1955562222, 2024104815, 2227730452, 2361852424,
   2428436474, 2756734187, 3204031479, 3329325298]
def shaInitState : List Nat :=
  [1779033703, 3144134277, 1013904242, 2773480762, 1359893119,
   2600822924, 528734635, 1541459225]
/-- Big-endian 32-bit word from four bytes. -/
def beWord (bs : List Nat) : Nat := bs.foldl (fun acc b => acc * 256 + b) 0

/-- Big-endian byte encoding of `n` on `k` bytes. -/
def beBytes (k n : Nat) : List Nat :=
  match k with
  | 0 => []
  | k + 1 => beBytes k (n / 256) ++ [n % 256]

/-- SHA-256 padding: `0x80`, zeros, then the 64-bit big-endian bit length. -/
def shaPad (msg : List Nat) : List Nat :=
  let len := msg.length
  let zeros := (64 - ((len + 9) % 64)) % 64
  msg ++ [0x80] ++ List.replicate zeros 0 ++ beBytes 8 (8 * len)

/-- Extend 16 words to the 64-word message schedule. -/
def shaSchedule (ws : List Nat) : List Nat :=
  (List.range 48).foldl
    (fun acc i =>
      acc ++ [w32 (smallSigma1 (acc.getD (i + 14) 0) + acc.getD (i + 9) 0 +
                   smallSigma0 (acc.getD (i + 1) 0) + acc.getD i 0)])
    ws

/-- One round of the SHA-256 compression function on the 8-word state. -/
def shaRound (st : List Nat) (kw : Nat × Nat) : List Nat :=
  match st with
  | [a, b, c, d, e, f, g, h] =>
    let t1 := w32 (h + bigSigma1 e + shaCh e f g + kw.1 + kw.2)
    let t2 := w32 (bigSigma0 a + shaMaj a b c)
    [w32 (t1 + t2), a, b, c, w32 (d + t1), e, f, g]
  | other => other

/-- Process one 64-byte block. -/
def shaBlock (h0 : List Nat) (block : List Nat) : List Nat :=
  let ws := shaSchedule ((chunksList 4 block).map beWord)
  let st := (shaK.zip ws).foldl shaRound h0
  List.zipWith (fun a b => w32 (a + b)) h0 st

def sha256Words (msg : List Nat) : List Nat :=
  (chunksList 64 (shaPad msg)).foldl shaBlock shaInitState

def hexDigit (n : Nat) : Char := if n < 10 then Char.ofNat (48 + n) else Char.ofNat (87 + n)

/-- Lowercase hex rendering, 8 digits per 32-bit word (Rust `format!("{:x}")`
    on the digest bytes). -/
def wordHex (n : Nat) : List Char :=
  (List.range 8).map (fun i => hexDigit ((n >>> (4 * (7 - i))) &&& 15))

/-- Lowercase-hex SHA-256 of a byte list. -/
def sha256hex (msg : List Nat) : String :=
  String.mk ((sha256Words msg).map wordHex).flatten

/-- Sanity check against the FIPS 180 test vector for "abc". -/
example : sha256hex [0x61, 0x62, 0x63] =
    "ba7816bf8f01cfea414140de5dae2223b00361a396177a9cb410ff61f20015ad" := by decide

/-! ### JSON values (serde_json `Value`; object fields are listed in
     serde_json's BTreeMap key order, i.e. sorted by key) -/

inductive Json where
  | null : Json
  | bool (b : Bool) : Json
  | num (n : Int) : Json
  | str (s : String) : Json
  | arr (elems : List Json) : Json
  | obj (fields : List (String × Json)) : Json

/-! ### Task and batch model (src/engines/sidecar/src/parallel/task.rs) -/

/-- `TaskOptions` (task.rs lines 19-24). -/
structure TaskOptions where
  mode : Option String
  sourcemap : Option Bool
  framework : Option String
deriving DecidableEq

/-- `TransformTask` (task.rs lines 5-17); the `PathBuf` file reference is
    modeled by its string. -/
structure TransformTask where
  id : String
  file : String
  content : String
  options : TaskOptions
  priority : Nat
deriving DecidableEq

/-- `TransformTask::new` (task.rs lines 44-52). -/
def TransformTask.new (id file content : String) : TransformTask :=
  ⟨id, file, content, ⟨none, none, none⟩, 0⟩

/-- `TransformTask::estimated_cost` (task.rs lines 65-74): content byte
    length, doubled when the content contains a fenced code-block marker. -/
def TransformTask.estimated_cost (t : TransformTask) : Nat :=
  let size_cost := (strBytes t.content).length
  let complexity_multiplier := if hasSeq ("```").data t.content.data then 2 else 1
  size_cost * complexity_multiplier

/-- `TaskResult` (task.rs lines 27-41). -/
inductive TaskResult where
  | success (id : String) (code : String) (map : Option Json) (metadata : Option Json)
      (duration_ms : Nat) : TaskResult
  | failure (id : String) (error : String) (recoverable : Bool) : TaskResult

/-- `TaskResult::id` (task.rs lines 78-83). -/
def TaskResult.id : TaskResult → String
  | .success id _ _ _ _ => id
  | .failure id _ _ => id

/-- `TaskResult::is_success` (task.rs lines 85-87). -/
def TaskResult.is_success : TaskResult → Bool
  | .success _ _ _ _ _ => true
  | .failure _ _ _ => false

/-- `TaskBatch` (task.rs lines 96-100). -/
structure TaskBatch where
  id : String
  tasks : List TransformTask
  total_cost : Nat
deriving DecidableEq

/-- `TaskBatch::new` (task.rs lines 103-110). -/
def TaskBatch.new (id : String) (tasks : List TransformTask) : TaskBatch :=
  ⟨id, tasks, (tasks.map TransformTask.estimated_cost).sum⟩

/-- `TaskBatch::split` (task.rs lines 113-125): one chunk when
    `num_chunks <= 1` or the task count is at most `num_chunks`, else
    `slice::chunks` with chunk size `ceil(len / num_chunks)`. -/
def TaskBatch.split (b : TaskBatch) (num_chunks : Nat) : List (List TransformTask) :=
  if num_chunks ≤ 1 ∨ b.tasks.length ≤ num_chunks then [b.tasks]
  else chunksList ((b.tasks.length + num_chunks - 1) / num_chunks) b.tasks

/-! ### Worker model (src/engines/sidecar/src/parallel/worker.rs)

The renderer `crate::transform::markdown_to_html` is not among the sources;
the spec treats it as an external collaborator, so it is a parameter
`render : String → Except String String`. -/

/-- `Worker::process_task` (worker.rs lines 94-109). -/
def Worker.process_task (render : String → Except String String)
    (task : TransformTask) : TaskResult :=
  match render task.content with
  | .ok html => .success task.id html none none 0
  | .error e => .failure task.id (toString e) true

/-- The duration restamping the worker loop applies to a finished result
    (worker.rs lines 61-72). -/
def finishDuration (r : TaskResult) (d : Nat) : TaskResult :=
  match r with
  | .success id code map metadata _ => .success id code map metadata d
  | f => f

/-- The result a worker emits for one task, given the measured duration
    (worker.rs lines 55-77). -/
def workerOutput (render : String → Except String String)
    (t : TransformTask) (d : Nat) : TaskResult :=
  finishDuration (Worker.process_task render t) d

/-! ### Pool batch model (src/engines/sidecar/src/parallel/pool.rs)

`ThreadPool::process_batch` (pool.rs lines 73-115) splits the batch with
`TaskBatch::split(num_workers)`, sends every task of every chunk in order on
the shared channel, then performs `len(tasks)` blocking receives. Workers
are concurrent, so the collected list is the per-task worker outputs in an
arbitrary completion order with arbitrary measured durations; the channels
deliver every sent message (the pool keeps its own live `result_sender`, so
`recv` cannot fail while collecting). -/

/-- The sequence in which `process_batch` sends the batch's tasks. -/
def sentTasks (b : TaskBatch) (num_workers : Nat) : List TransformTask :=
  (b.split num_workers).flatten

/-- `results` is a possible return value of
    `ThreadPool::process_batch(batch)` on a pool of `num_workers` workers
    whose renderer is `render`. -/
def processBatchOutcome (render : String → Except String String)
    (num_workers : Nat) (b : TaskBatch) (results : List TaskResult) : Prop :=
  ∃ durs : List Nat, durs.length = (sentTasks b num_workers).length ∧
    List.Perm results (List.zipWith (workerOutput render) (sentTasks b num_workers) durs)

/-! ### Protocol (src/engines/sidecar/src/protocol.rs) -/

/-- `RpcId` (protocol.rs lines 36-41). -/
inductive RpcId where
  | num (n : Int) : RpcId
  | str (s : String) : RpcId
deriving DecidableEq

/-- `RpcError` (protocol.rs lines 43-49). -/
structure RpcError where
  code : Int
  message : String
  data : Option Json

/-- `RpcResponse` (protocol.rs lines 26-34). -/
structure RpcResponse where
  jsonrpc : String
  id : RpcId
  result : Option Json
  error : Option RpcError

/-- `RpcRequest` (protocol.rs lines 11-17). -/
structure RpcRequest where
  jsonrpc : String
  id : RpcId
  method : String
  params : Option Json

/-- `RpcNotification` (protocol.rs lines 19-24). -/
structure RpcNotification where
  jsonrpc : String
  method : String
  params : Option Json

/-- `RpcMessage` (protocol.rs lines 4-9). -/
inductive RpcMessage where
  | request (r : RpcRequest) : RpcMessage
  | notification (n : RpcNotification) : RpcMessage

def PARSE_ERROR : Int := -32700
def METHOD_NOT_FOUND : Int := -32601
def INVALID_PARAMS : Int := -32602
def TRANSFORM_ERROR : Int := -32001

/-- `create_response` (protocol.rs lines 67-74). -/
def create_response (id : RpcId) (result : Json) : RpcResponse :=
  ⟨"2.0", id, some result, none⟩

/-- `create_error_response` (protocol.rs lines 76-87). -/
def create_error_response (id : RpcId) (code : Int) (message : String)
    (data : Option Json) : RpcResponse :=
  ⟨"2.0", id, none, some ⟨code, message, data⟩⟩

/-- `create_parse_error` (protocol.rs lines 89-100): placeholder string id
    "null", code -32700. -/
def create_parse_error : RpcResponse :=
  ⟨"2.0", RpcId.str "null", none, some ⟨PARSE_ERROR, "Parse error", none⟩⟩

/-- `create_method_not_found` (protocol.rs lines 102-104). -/
def create_method_not_found (id : RpcId) : RpcResponse :=
  create_error_response id METHOD_NOT_FOUND "Method not found" none

/-! ### Handlers (src/engines/sidecar/src/handlers.rs)

Request payload decoding (`serde_json::from_value`) and YAML parsing are
external codec collaborators, passed in as parameters. Handler cores are
stated on the already-decoded request structures. -/

/-- `NormalizeRequest` (handlers.rs lines 31-38); the content string is its
    character list. `remove_bom` defaults to false and `normalize_lf` to
    true at decode time, which is the codec's concern. -/
structure NormalizeRequest where
  content : List Char
  remove_bom : Bool
  normalize_lf : Bool

/-- `NormalizeResponse` (handlers.rs lines 44-48). -/
structure NormalizeResponse where
  content : List Char
  changed : Bool

/-- `FileInfo` (handlers.rs lines 55-60); `size` and `mtime` are `u64`
    values, used only for decimal formatting. -/
structure FileInfo where
  path : String
  size : Nat
  mtime : Nat
deriving DecidableEq

def bomChar : Char := Char.ofNat 0xFEFF

/-- `content.starts_with('\u{FEFF}')` (handlers.rs line 254). -/
def startsWithBOM (c : List Char) : Bool :=
  match c with
  | c0 :: _ => c0 == bomChar
  | [] => false

/-- The BOM step of `handle_normalize` (handlers.rs lines 253-257):
    `content[3..]` drops the 3-byte, one-character BOM. Returns the new
    content and whether this step set `changed`. -/
def bomPhase (content : List Char) (remove_bom : Bool) : List Char × Bool :=
  if remove_bom && startsWithBOM content then (content.drop 1, true) else (content, false)

def crlfSeq : List Char := ['\r', '\n']

/-- The line-ending step of `handle_normalize` (handlers.rs lines 259-263). -/
def lfPhase (content : List Char) (normalize_lf : Bool) : List Char × Bool :=
  if normalize_lf && hasSeq crlfSeq content then (strReplace content crlfSeq ['\n'], true)
  else (content, false)

/-- The body of `handle_normalize` after decoding (handlers.rs lines
    250-268). -/
def normalizeContent (content : List Char) (remove_bom normalize_lf : Bool) :
    List Char × Bool :=
  let p1 := bomPhase content remove_bom
  let p2 := lfPhase p1.1 normalize_lf
  (p2.1, p1.2 || p2.2)

/-- `handle_normalize` on a decoded request. -/
def handle_normalize_core (req : NormalizeRequest) : NormalizeResponse :=
  let r := normalizeContent req.content req.remove_bom req.normalize_lf
  ⟨r.1, r.2⟩

/-- The path comparison `a.path.cmp(&b.path) == Less` of the sort in
    `handle_compute_digest` (handlers.rs line 286). -/
def pathLt (a b : FileInfo) : Bool := strLtChars a.path.data b.path.data

/-- Insert into a path-sorted list, after any entry with an equal or
    smaller path: the behavior of the stable `sort_by` on the path
    comparator (handlers.rs line 286). -/
def pathInsert (x : FileInfo) : List FileInfo → List FileInfo
  | [] => [x]
  | y :: ys => if pathLt y x then y :: pathInsert x ys else x :: y :: ys

/-- `files.sort_by(|a, b| a.path.cmp(&b.path))` (handlers.rs lines
    285-286): a stable sort by path, realized as stable insertion sort
    (stable sorts by the same key agree pointwise). -/
def sortByPath (l : List FileInfo) : List FileInfo := l.foldr pathInsert []

/-- One record's digest contribution `"path|size|mtime\n"` (handlers.rs
    line 291). -/
def digestLine (f : FileInfo) : String :=
  f.path ++ "|" ++ toString f.size ++ "|" ++ toString f.mtime ++ "\n"

/-- The concatenated byte string fed to the hasher (handlers.rs lines
    289-292). -/
def digestInput (files : List FileInfo) : String :=
  String.join ((sortByPath files).map digestLine)

/-- `handle_compute_digest` on a decoded file list (handlers.rs lines
    284-294): sort by path, concatenate the records, SHA-256, lowercase
    hex. -/
def handle_compute_digest_core (files : List FileInfo) : String :=
  sha256hex (strBytes (digestInput files))

/-- `TransformOptions` (handlers.rs lines 16-21). -/
structure TransformOptions where
  mode : Option String
  sourcemap : Option Bool
  framework : Option String

/-- `TransformRequest` (handlers.rs lines 9-14). -/
structure TransformRequest where
  file : String
  content : String
  options : Option TransformOptions

def backquoteChar : Char := Char.ofNat 96

def lbraceChar : Char := Char.ofNat 123

/-- The template-literal escaping applied to generated code (handlers.rs
    lines 140-143 and line 233): `\` then  backquote then `$`-brace, in
    that order. -/
def escapeTpl (s : String) : String :=
  String.mk
    (strReplace
      (strReplace (strReplace s.data ['\\'] ['\\', '\\']) [backquoteChar]
        ['\\', backquoteChar])
      ['$', lbraceChar] ['\\', '$', lbraceChar])

/-- `transform_markdown` (handlers.rs lines 123-152). The pulldown-cmark
    rendering (options setup, parse, push_html) is the external renderer
    `render`; the function wraps its output and always returns `Ok`. -/
def transform_markdown (render : String → String) (content : String)
    (file_path : String) : Except String String :=
  let html_output := render content
  .ok ("// Generated from: " ++ file_path ++ "\nexport default `" ++
    escapeTpl html_output ++ "`;\n")

/-- The import/export scan of `transform_mdx` (handlers.rs lines 199-207):
    classify each line. -/
def mdxClassify (line : List Char) : Nat :=
  if leadsWith ("import ").data (trimStartChars line) then 0
  else if leadsWith ("export ").data (trimStartChars line) &&
      !(hasSeq ("export default").data line) then 1
  else 2

/-- `transform_mdx` (handlers.rs lines 191-237): collect import lines and
    non-default export lines, join the remaining lines as the body, emit a
    header comment, the imports, the exports, and the escaped body as a
    template literal. Always returns `Ok`. -/
def transform_mdx (content : String) (file_path : String) : Except String String :=
  let lines := rustLines content.data
  let imports := lines.filter (fun l => mdxClassify l == 0)
  let exports := lines.filter (fun l => mdxClassify l == 1)
  let body_lines := lines.filter (fun l => mdxClassify l == 2)
  let body := List.intercalate ['\n'] body_lines
  let header := "// Generated from: " ++ file_path ++ "\n"
  let importPart := String.join (imports.map (fun l => String.mk l ++ "\n"))
  let exportPart :=
    if exports.isEmpty then ""
    else "\n" ++ String.join (exports.map (fun l => String.mk l ++ "\n"))
  .ok (header ++ importPart ++ exportPart ++ "\nexport default `" ++
    escapeTpl (String.mk body) ++ "`;\n")

/-- `extract_frontmatter` (handlers.rs lines 154-189); YAML parsing is the
    external `parseYaml` (a failed parse yields no frontmatter). -/
def extract_frontmatter (parseYaml : String → Option Json) (content : String) :
    Option Json × String :=
  let lines := rustLines content.data
  match lines with
  | [] => (none, content)
  | l0 :: _ =>
    if trimChars l0 ≠ ("---").data then (none, content)
    else
      match (lines.drop 1).findIdx? (fun l => trimChars l == ("---").data) with
      | some j =>
        let endIdx := j + 1
        let yaml_content := String.mk (List.intercalate ['\n'] ((lines.drop 1).take (endIdx - 1)))
        let remaining := String.mk (List.intercalate ['\n'] (lines.drop (endIdx + 1)))
        (parseYaml yaml_content, remaining)
      | none => (none, content)

/-- serde serialization of `TransformResponse` (handlers.rs lines 23-29),
    fields in serde_json map key order. -/
def transformResponseJson (code : String) (metadata : Json) : Json :=
  Json.obj [("code", Json.str code), ("dependencies", Json.null), ("map", Json.null),
    ("metadata", metadata)]

/-- `handle_transform` (handlers.rs lines 71-121). -/
def handle_transform (parseYaml : String → Option Json) (render : String → String)
    (decTransform : Json → Except String TransformRequest) (id : RpcId)
    (params : Option Json) : RpcResponse :=
  match params with
  | none => create_error_response id INVALID_PARAMS "Missing params" none
  | some p =>
    match decTransform p with
    | .error e => create_error_response id INVALID_PARAMS ("Invalid params: " ++ e) none
    | .ok req =>
      let fc := extract_frontmatter parseYaml req.content
      let metadata :=
        match fc.1 with
        | some fm => Json.obj [("file", Json.str req.file), ("frontmatter", fm)]
        | none => Json.obj [("file", Json.str req.file)]
      let is_mdx := endsWithSeq (".mdx").data req.file.data
      let transformed :=
        if is_mdx then transform_mdx fc.2 req.file
        else transform_markdown render fc.2 req.file
      match transformed with
      | .ok code => create_response id (transformResponseJson code metadata)
      | .error e => create_error_response id TRANSFORM_ERROR ("Transform failed: " ++ e) none

/-- `handle_ping` (handlers.rs lines 67-69). -/
def handle_ping (id : RpcId) : RpcResponse :=
  create_response id (Json.obj [("pong", Json.bool true)])

/-- `handle_normalize` (handlers.rs lines 239-271), decoding via the
    external codec. -/
def handle_normalize (decNormalize : Json → Except String NormalizeRequest)
    (id : RpcId) (params : Option Json) : RpcResponse :=
  match params with
  | none => create_error_response id INVALID_PARAMS "Missing params" none
  | some p =>
    match decNormalize p with
    | .error e => create_error_response id INVALID_PARAMS ("Invalid params: " ++ e) none
    | .ok req =>
      let r := handle_normalize_core req
      create_response id
        (Json.obj [("changed", Json.bool r.changed), ("content", Json.str (String.mk r.content))])

/-- `handle_compute_digest` (handlers.rs lines 273-299), decoding via the
    external codec. -/
def handle_compute_digest (decDigest : Json → Except String (List FileInfo))
    (id : RpcId) (params : Option Json) : RpcResponse :=
  match params with
  | none => create_error_response id INVALID_PARAMS "Missing params" none
  | some p =>
    match decDigest p with
    | .error e => create_error_response id INVALID_PARAMS ("Invalid params: " ++ e) none
    | .ok files =>
      create_response id (Json.obj [("digest", Json.str (handle_compute_digest_core files))])

/-! ### Dispatcher (src/engines/sidecar/src/main.rs) -/

/-- The external collaborators of the dispatcher: envelope parsing
    (`serde_json::from_str`), per-method payload decoders
    (`serde_json::from_value`), the YAML parser, and the markdown
    renderer. -/
structure Externals where
  parseLine : String → Option RpcMessage
  decTransform : Json → Except String TransformRequest
  decNormalize : Json → Except String NormalizeRequest
  decDigest : Json → Except String (List FileInfo)
  parseYaml : String → Option Json
  render : String → String

/-- `handle_request` (main.rs lines 84-96); `none` models the `shutdown`
    arm, which exits the process without writing a response. -/
def handle_request (ext : Externals) (req : RpcRequest) : Option RpcResponse :=
  match req.method with
  | "ping" => some (handle_ping req.id)
  | "shutdown" => none
  | "transform" => some (handle_transform ext.parseYaml ext.render ext.decTransform req.id req.params)
  | "normalize" => some (handle_normalize ext.decNormalize req.id req.params)
  | "computeDigest" => some (handle_compute_digest ext.decDigest req.id req.params)
  | _ => some (create_method_not_found req.id)

/-- The read loop of `main` (main.rs lines 40-78): skip blank lines, answer
    an unparseable line with `create_parse_error` and continue, dispatch
    requests (stopping the process on `shutdown`), ignore notifications.
    Returns the sequence of response frames written to stdout. -/
def processLines (ext : Externals) : List String → List RpcResponse
  | [] => []
  | line :: rest =>
    if (trimChars line.data).isEmpty then processLines ext rest
    else
      match ext.parseLine line with
      | none => create_parse_error :: processLines ext rest
      | some (.request r) =>
        match handle_request ext r with
        | some resp => resp :: processLines ext rest
        | none => []
      | some (.notification _) => processLines ext rest


/-! ### Spec-side characterizations and concrete instances used by the
     claims -/

/-- Spec-side reading of the line-ending rule: scan left to right, turn
    each CR-LF pair into LF, copy every other character (so a lone CR is
    left untouched). -/
def crlfToLfSpec : List Char → List Char
  | [] => []
  | [c] => [c]
  | c1 :: c2 :: rest =>
    if c1 = '\r' ∧ c2 = '\n' then '\n' :: crlfToLfSpec rest
    else c1 :: crlfToLfSpec (c2 :: rest)

/-- A concrete five-task batch used to exercise `TaskBatch::split`. -/
def exTask (i : Nat) : TransformTask := TransformTask.new (toString i) "f.md" "x"

def exBatch5 : TaskBatch :=
  TaskBatch.new "batch-5" [exTask 0, exTask 1, exTask 2, exTask 3, exTask 4]

/-- Two records sharing a path but with different sizes and mtimes. -/
def fiDupA : FileInfo := ⟨"a", 1, 1⟩

def fiDupB : FileInfo := ⟨"a", 2, 2⟩

/-- The two records of the spec's `computeDigest` example scenario. -/
def fiBmd : FileInfo := ⟨"b.md", 5, 10⟩

def fiAmd : FileInfo := ⟨"a.md", 1, 2⟩

/-- A renderer that succeeds on every input (concrete instance). -/
def wRender : String → Except String String := fun s => Except.ok s

def wBatch : TaskBatch :=
  TaskBatch.new "wb" [TransformTask.new "t1" "a.md" "alpha", TransformTask.new "t2" "b.md" "beta"]

/-- One concrete completion of `wBatch` on a single worker. -/
def wResults : List TaskResult :=
  List.zipWith (workerOutput wRender) (sentTasks wBatch 1) [3, 5]

/-- Concrete external collaborators: one recognizable `ping` line. -/
def wExternals : Externals where
  parseLine := fun s =>
    if s = "good" then some (RpcMessage.request ⟨"2.0", RpcId.num 1, "ping", none⟩) else none
  decTransform := fun _ => Except.error "unsupported"
  decNormalize := fun _ => Except.error "unsupported"
  decDigest := fun _ => Except.error "unsupported"
  parseYaml := fun _ => none
  render := fun s => s

/-- A decoder that accepts every payload as one fixed transform request. -/
def wDecTransform : Json → Except String TransformRequest :=
  fun _ => Except.ok ⟨"a.md", "hi", none⟩

/-! ### Lemmas about `chunksGo` / `chunksList` -/

theorem chunksGo_flatten (c : Nat) (hc : 0 < c) :
    ∀ (fuel : Nat) (l : List α), l.length ≤ fuel → (chunksGo c fuel l).flatten = l := by
  intro fuel
  induction fuel with
  | zero =>
    intro l hl
    have h : l = [] := List.eq_nil_of_length_eq_zero (Nat.le_zero.mp hl)
    subst h
    rfl
  | succ fuel ih =>
    intro l hl
    cases l with
    | nil => rfl
    | cons x xs =>
      have hdrop : ((x :: xs).drop c).length ≤ fuel := by
        rw [List.length_drop]
        simp only [List.length_cons] at hl ⊢
        omega
      simp only [chunksGo, List.flatten_cons, ih _ hdrop, List.take_append_drop]

theorem chunksGo_length (c : Nat) (hc : 0 < c) :
    ∀ (fuel : Nat) (l : List α), l.length ≤ fuel →
      (chunksGo c fuel l).length = (l.length + c - 1) / c := by
  intro fuel
  induction fuel with
  | zero =>
    intro l hl
    have h : l = [] := List.eq_nil_of_length_eq_zero (Nat.le_zero.mp hl)
    subst h
    simp only [chunksGo, List.length_nil, Nat.zero_add]
    exact (Nat.div_eq_of_lt (by omega)).symm
  | succ fuel ih =>
    intro l hl
    cases l with
    | nil =>
      simp only [chunksGo, List.length_nil, Nat.zero_add]
      exact (Nat.div_eq_of_lt (by omega)).symm
    | cons x xs =>
      have hdrop : ((x :: xs).drop c).length ≤ fuel := by
        rw [List.length_drop]
        simp only [List.length_cons] at hl ⊢
        omega
      have hn : 0 < (x :: xs).length := by simp
      simp only [chunksGo, List.length_cons, ih _ hdrop, List.length_drop]
      rcases le_or_lt (x :: xs).length c with h | h
      · have h1 : ((x :: xs).length - c + c - 1) / c = 0 :=
          Nat.div_eq_of_lt (by simp only [List.length_cons] at h ⊢; omega)
        have h2 : ((x :: xs).length + c - 1) / c = 1 := by
          apply Nat.div_eq_of_lt_le
          · simp only [List.length_cons] at h ⊢; omega
          · simp only [List.length_cons] at h ⊢; omega
        simp only [List.length_cons] at h1 h2 ⊢
        omega
      · have e1 : (x :: xs).length - c + c - 1 = (x :: xs).length - 1 := by
          simp only [List.length_cons] at h ⊢; omega
        have e2 : (x :: xs).length + c - 1 = (x :: xs).length - 1 + c := by
          simp only [List.length_cons] at h ⊢; omega
        simp only [List.length_cons] at e1 e2 ⊢
        rw [e1, e2, Nat.add_div_right _ hc]

theorem chunksGo_sizes (c : Nat) (hc : 0 < c) :
    ∀ (fuel : Nat) (l : List α), ∀ ch ∈ chunksGo c fuel l, ch.length ≤ c ∧ ch ≠ [] := by
  intro fuel
  induction fuel with
  | zero =>
    intro l ch hch
    cases l with
    | nil => simp [chunksGo] at hch
    | cons x xs => simp [chunksGo] at hch
  | succ fuel ih =>
    intro l ch hch
    cases l with
    | nil => simp [chunksGo] at hch
    | cons x xs =>
      simp only [chunksGo, List.mem_cons] at hch
      rcases hch with h | h
      · subst h
        constructor
        · simp [List.length_take]
        · simp [List.take_eq_nil_iff]
          omega
      · exact ih _ ch h

theorem chunksGo_nil_iff (c : Nat) :
    ∀ (fuel : Nat) (l : List α), l.length ≤ fuel → 0 < c →
      (chunksGo c fuel l = [] ↔ l = []) := by
  intro fuel l hl hc
  cases l with
  | nil =>
    cases fuel <;> simp [chunksGo]
  | cons x xs =>
    cases fuel with
    | zero => simp at hl
    | succ fuel => simp [chunksGo]

theorem chunksGo_dropLast (c : Nat) (hc : 0 < c) :
    ∀ (fuel : Nat) (l : List α), l.length ≤ fuel →
      ∀ ch ∈ (chunksGo c fuel l).dropLast, ch.length = c := by
  intro fuel
  induction fuel with
  | zero =>
    intro l hl ch hch
    have h : l = [] := List.eq_nil_of_length_eq_zero (Nat.le_zero.mp hl)
    subst h
    simp [chunksGo] at hch
  | succ fuel ih =>
    intro l hl ch hch
    cases l with
    | nil => simp [chunksGo] at hch
    | cons x xs =>
      have hdrop : ((x :: xs).drop c).length ≤ fuel := by
        rw [List.length_drop]
        simp only [List.length_cons] at hl ⊢
        omega
      simp only [chunksGo] at hch
      rcases hrest : chunksGo c fuel ((x :: xs).drop c) with _ | ⟨r, rs⟩
      · rw [hrest] at hch
        simp at hch
      · rw [hrest] at hch
        have hne : (x :: xs).drop c ≠ [] := by
          intro hnil
          rw [hnil] at hrest
          cases fuel <;> simp [chunksGo] at hrest
        have hlen : c < (x :: xs).length := by
          by_contra hcon
          push_neg at hcon
          exact hne (List.drop_eq_nil_of_le hcon)
        rw [List.dropLast_cons_of_ne_nil (by simp)] at hch
        rcases List.mem_cons.mp hch with h | h
        · subst h
          rw [List.length_take]
          simp only [List.length_cons] at hlen ⊢
          omega
        · rw [← hrest] at h
          exact ih _ hdrop ch h

/-- The flattening of `TaskBatch::split` is the original task list (helper
    shared by several claims). -/
theorem split_flatten (b : TaskBatch) (n : Nat) : (b.split n).flatten = b.tasks := by
  unfold TaskBatch.split
  split
  · simp
  · rename_i h
    push_neg at h
    obtain ⟨h1, h2⟩ := h
    have hc : 0 < (b.tasks.length + n - 1) / n := by
      apply Nat.le_div_iff_mul_le (by omega) |>.mpr
      omega
    unfold chunksList
    rw [if_neg (by omega)]
    exact chunksGo_flatten _ hc _ _ le_rfl

/-- C9: for every batch and every `n`, the concatenation of the chunks
    returned by `TaskBatch::split(n)`, in order, equals the batch's original
    task sequence: no task is dropped, duplicated, or reordered. -/
theorem split_flatten_eq_tasks (b : TaskBatch) (n : Nat) : (b.split n).flatten = b.tasks :=
  split_flatten b n

/-- C2 counterexample: for 5 tasks and `n = 4` the guard conditions of the
    chunking branch hold (`1 < 4 < 5`), yet `split` returns 3 chunks, not
    `n = 4`: chunk size is `ceil(5/4) = 2`, so only `ceil(5/2) = 3` chunks
    arise. -/
theorem split_chunk_count_counterexample :
    1 < 4 ∧ 4 < exBatch5.tasks.length ∧
      (exBatch5.split 4).length = 3 ∧ (exBatch5.split 4).length ≠ 4 := by
  decide

/-- Arithmetic helper: with `c = ceil(L/n)`, there are `ceil(L/c)` chunks
    and this is at most `n`. -/
theorem ceil_div_chunk_count_le (L n : Nat) (h1 : 1 < n) (h2 : n < L) :
    (L + (L + n - 1) / n - 1) / ((L + n - 1) / n) ≤ n := by
  obtain ⟨c, hc⟩ : ∃ c, (L + n - 1) / n = c := ⟨_, rfl⟩
  rw [hc]
  have hcpos : 0 < c := by
    rw [← hc]
    exact (Nat.le_div_iff_mul_le (by omega)).mpr (by omega)
  have hcn : L ≤ c * n := by
    have hdm := Nat.div_add_mod (L + n - 1) n
    rw [hc] at hdm
    have hmod : (L + n - 1) % n < n := Nat.mod_lt _ (by omega)
    rw [mul_comm] at hdm
    generalize hP : c * n = P at hdm ⊢
    generalize hR : (L + n - 1) % n = R at hdm hmod
    omega
  rw [Nat.div_le_iff_le_mul_add_pred hcpos]
  generalize hP : c * n = P at hcn ⊢
  omega

/-- C2 (amended): `TaskBatch::split(n)` returns the whole task list as a
    single chunk when `n ≤ 1` or the task count is at most `n`; otherwise,
    with `c = ceil(len/n)`, it returns `ceil(len/c)` contiguous chunks — at
    most `n`, but possibly fewer — each nonempty of size at most `c`, and
    every chunk except possibly the last of size exactly `c`. -/
theorem split_chunk_shape (b : TaskBatch) (n : Nat) :
    ((n ≤ 1 ∨ b.tasks.length ≤ n) → b.split n = [b.tasks]) ∧
    (1 < n → n < b.tasks.length →
      (b.split n).length =
        (b.tasks.length + (b.tasks.length + n - 1) / n - 1) / ((b.tasks.length + n - 1) / n) ∧
      (b.split n).length ≤ n ∧
      (∀ ch ∈ (b.split n).dropLast, ch.length = (b.tasks.length + n - 1) / n) ∧
      (∀ ch ∈ b.split n, ch.length ≤ (b.tasks.length + n - 1) / n ∧ ch ≠ [])) := by
  constructor
  · intro h
    unfold TaskBatch.split
    rw [if_pos h]
  · intro h1 h2
    have hcond : ¬(n ≤ 1 ∨ b.tasks.length ≤ n) := by omega
    have hc : 0 < (b.tasks.length + n - 1) / n := by
      refine (Nat.le_div_iff_mul_le (by omega)).mpr ?_
      omega
    have hsplit : b.split n =
        chunksGo ((b.tasks.length + n - 1) / n) b.tasks.length b.tasks := by
      unfold TaskBatch.split chunksList
      rw [if_neg hcond, if_neg (by omega)]
    have hlen : (b.split n).length =
        (b.tasks.length + (b.tasks.length + n - 1) / n - 1) / ((b.tasks.length + n - 1) / n) := by
      rw [hsplit, chunksGo_length _ hc _ _ le_rfl]
    refine ⟨hlen, ?_, ?_, ?_⟩
    · rw [hlen]
      exact ceil_div_chunk_count_le b.tasks.length n h1 h2
    · rw [hsplit]
      exact chunksGo_dropLast _ hc _ _ le_rfl
    · rw [hsplit]
      exact chunksGo_sizes _ hc _ _

/-- C2 witness: both branches of `split_chunk_shape` at concrete inputs. -/
theorem split_chunk_shape_witness :
    exBatch5.split 1 = [exBatch5.tasks] ∧ (exBatch5.split 4).length ≤ 4 :=
  ⟨(split_chunk_shape exBatch5 1).1 (Or.inl (by decide)),
   ((split_chunk_shape exBatch5 4).2 (by decide) (by decide)).2.1⟩

/-! ### Lemmas on CRLF replacement (`handle_normalize`) -/

theorem leadsWith_crlf_iff (c1 c2 : Char) (rest : List Char) :
    leadsWith crlfSeq (c1 :: c2 :: rest) = true ↔ (c1 = '\r' ∧ c2 = '\n') := by
  simp only [crlfSeq, leadsWith, Bool.and_true, Bool.and_eq_true, beq_iff_eq]
  constructor
  · rintro ⟨h1, h2⟩
    exact ⟨h1.symm, h2.symm⟩
  · rintro ⟨h1, h2⟩
    exact ⟨h1.symm, h2.symm⟩

theorem replaceGo_cons_pos {pat rep : List Char} {fuel : Nat} {c : Char} {rest : List Char}
    (h : leadsWith pat (c :: rest) = true) :
    replaceGo pat rep (fuel + 1) (c :: rest) =
      rep ++ replaceGo pat rep fuel (List.drop pat.length (c :: rest)) := by
  simp [replaceGo, h]

theorem replaceGo_cons_neg {pat rep : List Char} {fuel : Nat} {c : Char} {rest : List Char}
    (h : leadsWith pat (c :: rest) = false) :
    replaceGo pat rep (fuel + 1) (c :: rest) = c :: replaceGo pat rep fuel rest := by
  simp [replaceGo, h]

theorem replaceGo_crlf_eq_spec :
    ∀ (fuel : Nat) (l : List Char), l.length ≤ fuel →
      replaceGo crlfSeq ['\n'] fuel l = crlfToLfSpec l := by
  intro fuel
  induction fuel with
  | zero =>
    intro l hl
    have h : l = [] := List.eq_nil_of_length_eq_zero (Nat.le_zero.mp hl)
    subst h
    rfl
  | succ fuel ih =>
    intro l hl
    match l with
    | [] => rfl
    | [c] =>
      have hlw : leadsWith crlfSeq [c] = false := by simp [crlfSeq, leadsWith]
      rw [replaceGo_cons_neg hlw]
      cases fuel <;> rfl
    | c1 :: c2 :: rest =>
      by_cases h : c1 = '\r' ∧ c2 = '\n'
      · obtain ⟨e1, e2⟩ := h
        subst e1
        subst e2
        have hlw : leadsWith crlfSeq ('\r' :: '\n' :: rest) = true :=
          (leadsWith_crlf_iff _ _ _).mpr ⟨rfl, rfl⟩
        have hrest : rest.length ≤ fuel := by
          simp only [List.length_cons] at hl
          omega
        rw [replaceGo_cons_pos hlw,
          show List.drop crlfSeq.length ('\r' :: '\n' :: rest) = rest from rfl, ih _ hrest]
        simp [crlfToLfSpec]
      · have hlw : leadsWith crlfSeq (c1 :: c2 :: rest) = false := by
          rcases Bool.eq_false_or_eq_true (leadsWith crlfSeq (c1 :: c2 :: rest)) with ht | hf
          · exact absurd ((leadsWith_crlf_iff _ _ _).mp ht) h
          · exact hf
        have hrest : (c2 :: rest).length ≤ fuel := by
          simp only [List.length_cons] at hl ⊢
          omega
        rw [replaceGo_cons_neg hlw, ih _ hrest]
        simp [crlfToLfSpec, h]

/-- `str::replace(content, "\r\n", "\n")` coincides with the spec-side
    left-to-right CRLF conversion. -/
theorem strReplace_crlf (l : List Char) : strReplace l crlfSeq ['\n'] = crlfToLfSpec l :=
  replaceGo_crlf_eq_spec l.length l le_rfl

theorem crlf_spec_length (l : List Char) : (crlfToLfSpec l).length ≤ l.length := by
  induction l using crlfToLfSpec.induct with
  | case1 => simp [crlfToLfSpec]
  | case2 c => simp [crlfToLfSpec]
  | case3 c1 c2 rest h ih =>
    simp only [crlfToLfSpec, if_pos h, List.length_cons]
    omega
  | case4 c1 c2 rest h ih =>
    simp only [crlfToLfSpec, if_neg h, List.length_cons] at ih ⊢
    omega

theorem hasSeq_crlf_cons (c : Char) (rest : List Char) :
    hasSeq crlfSeq (c :: rest) = (leadsWith crlfSeq (c :: rest) || hasSeq crlfSeq rest) := rfl

theorem crlf_spec_length_lt (l : List Char) (h : hasSeq crlfSeq l = true) :
    (crlfToLfSpec l).length < l.length := by
  induction l using crlfToLfSpec.induct with
  | case1 => simp [hasSeq, leadsWith, crlfSeq] at h
  | case2 c => simp [hasSeq, leadsWith, crlfSeq] at h
  | case3 c1 c2 rest hc ih =>
    have := crlf_spec_length rest
    simp only [crlfToLfSpec, if_pos hc, List.length_cons]
    omega
  | case4 c1 c2 rest hc ih =>
    have hseq : hasSeq crlfSeq (c2 :: rest) = true := by
      rw [hasSeq_crlf_cons] at h
      rcases (Bool.or_eq_true _ _ ▸ h : _ ∨ _) with ht | ht
      · exact absurd ((leadsWith_crlf_iff _ _ _).mp ht) hc
      · exact ht
    have h2 := ih hseq
    simp only [crlfToLfSpec, if_neg hc, List.length_cons] at h2 ⊢
    omega

theorem crlf_spec_id (l : List Char) (h : hasSeq crlfSeq l = false) : crlfToLfSpec l = l := by
  induction l using crlfToLfSpec.induct with
  | case1 => rfl
  | case2 c => rfl
  | case3 c1 c2 rest hc ih =>
    exfalso
    rw [hasSeq_crlf_cons, (leadsWith_crlf_iff c1 c2 rest).mpr hc] at h
    simp at h
  | case4 c1 c2 rest hc ih =>
    have hseq : hasSeq crlfSeq (c2 :: rest) = false := by
      rw [hasSeq_crlf_cons] at h
      exact (Bool.or_eq_false_iff.mp h).2
    simp only [crlfToLfSpec, if_neg hc, ih hseq]

theorem crlf_spec_count (a : Char) (ha1 : a ≠ '\r') (ha2 : a ≠ '\n') :
    ∀ l : List Char, (crlfToLfSpec l).count a = l.count a := by
  intro l
  induction l using crlfToLfSpec.induct with
  | case1 => rfl
  | case2 c => rfl
  | case3 c1 c2 rest hc ih =>
    obtain ⟨e1, e2⟩ := hc
    subst e1
    subst e2
    have hstep : crlfToLfSpec ('\r' :: '\n' :: rest) = '\n' :: crlfToLfSpec rest := by
      simp [crlfToLfSpec]
    rw [hstep, List.count_cons_of_ne ha2, List.count_cons_of_ne ha1,
      List.count_cons_of_ne ha2, ih]
  | case4 c1 c2 rest hc ih =>
    simp only [crlfToLfSpec, if_neg hc]
    rw [List.count_cons, List.count_cons, ih]

theorem lfPhase_length (x : List Char) (b : Bool) : (lfPhase x b).1.length ≤ x.length := by
  unfold lfPhase
  split
  · rw [strReplace_crlf]
    exact crlf_spec_length x
  · exact le_rfl

theorem lfPhase_count_bom (x : List Char) (b : Bool) :
    (lfPhase x b).1.count bomChar = x.count bomChar := by
  unfold lfPhase
  split
  · rw [strReplace_crlf]
    exact crlf_spec_count bomChar (by decide) (by decide) x
  · rfl

/-- C5: for every normalize request, the `changed` flag in the response of
    `handle_normalize` is true if and only if the returned content differs
    from the input content. -/
theorem normalize_changed_iff_content_ne (req : NormalizeRequest) :
    (handle_normalize_core req).changed = true ↔
      (handle_normalize_core req).content ≠ req.content := by
  by_cases h1 : (req.remove_bom && startsWithBOM req.content) = true
  · have hb : bomPhase req.content req.remove_bom = (req.content.drop 1, true) := by
      unfold bomPhase
      rw [if_pos h1]
    simp only [handle_normalize_core, normalizeContent, hb, Bool.true_or]
    have hlen : (lfPhase (req.content.drop 1) req.normalize_lf).1.length <
        req.content.length := by
      have h2 := lfPhase_length (req.content.drop 1) req.normalize_lf
      have hne : req.content ≠ [] := by
        have hsb := (Bool.and_eq_true _ _ ▸ h1 : _ ∧ _).2
        cases hc : req.content with
        | nil => rw [hc] at hsb; simp [startsWithBOM] at hsb
        | cons c0 tail => simp
      have hpos : 0 < req.content.length := List.length_pos.mpr hne
      rw [List.length_drop] at h2
      omega
    exact iff_of_true trivial (fun he => absurd (congrArg List.length he) (by omega))
  · have hb : bomPhase req.content req.remove_bom = (req.content, false) := by
      unfold bomPhase
      rw [if_neg h1]
    simp only [handle_normalize_core, normalizeContent, hb, Bool.false_or]
    by_cases h2 : (req.normalize_lf && hasSeq crlfSeq req.content) = true
    · have hl : lfPhase req.content req.normalize_lf =
          (strReplace req.content crlfSeq ['\n'], true) := by
        unfold lfPhase
        rw [if_pos h2]
      simp only [hl]
      have hseq : hasSeq crlfSeq req.content = true := (Bool.and_eq_true _ _ ▸ h2 : _ ∧ _).2
      have hlt : (strReplace req.content crlfSeq ['\n']).length < req.content.length := by
        rw [strReplace_crlf]
        exact crlf_spec_length_lt _ hseq
      exact iff_of_true trivial (fun he => absurd (congrArg List.length he) (by omega))
    · have hl : lfPhase req.content req.normalize_lf = (req.content, false) := by
        unfold lfPhase
        rw [if_neg h2]
      simp only [hl]
      exact iff_of_false (by simp) (by simp)

/-- C6: with `normalize_lf = true`, `handle_normalize` converts every CRLF
    pair to LF and leaves every lone CR unchanged: the content produced is
    exactly the spec-side left-to-right CRLF-to-LF conversion of the content
    after the BOM step. -/
theorem normalize_lf_crlf_conversion (content : List Char) (rb : Bool) :
    (normalizeContent content rb true).1 = crlfToLfSpec (bomPhase content rb).1 := by
  simp only [normalizeContent]
  by_cases h : hasSeq crlfSeq (bomPhase content rb).1 = true
  · unfold lfPhase
    rw [if_pos (by simp [h])]
    exact strReplace_crlf _
  · unfold lfPhase
    rw [if_neg (by simp [h])]
    exact (crlf_spec_id _ (Bool.not_eq_true _ ▸ Bool.of_not_eq_true h)).symm

/-- C7: `handle_normalize` removes a byte-order marker only when
    `remove_bom` is true and the marker is the first character; at most one
    marker is removed (the leading one), and any other BOM — or any BOM when
    `remove_bom` is false — survives in the output (counted occurrences). -/
theorem normalize_bom_removal (content : List Char) (rb nl : Bool) :
    (¬(rb = true ∧ startsWithBOM content = true) →
      (normalizeContent content rb nl).1.count bomChar = content.count bomChar) ∧
    (rb = true → startsWithBOM content = true →
      content.head? = some bomChar ∧
      (normalizeContent content rb nl).1 = (lfPhase (content.drop 1) nl).1 ∧
      (normalizeContent content rb nl).1.count bomChar + 1 = content.count bomChar) := by
  constructor
  · intro h
    have hb : bomPhase content rb = (content, false) := by
      unfold bomPhase
      rw [if_neg (fun hc => h (Bool.and_eq_true _ _ ▸ hc))]
    simp only [normalizeContent, hb]
    exact lfPhase_count_bom content nl
  · intro hrb hsb
    cases content with
    | nil => simp [startsWithBOM] at hsb
    | cons c0 tail =>
      have hc0 : c0 = bomChar := by
        simpa [startsWithBOM] using hsb
      subst hc0
      have hb : bomPhase (bomChar :: tail) rb = (tail, true) := by
        unfold bomPhase
        rw [if_pos (by simp [hrb, startsWithBOM])]
        rfl
      refine ⟨rfl, by simp only [normalizeContent, hb]; rfl, ?_⟩
      simp only [normalizeContent, hb, lfPhase_count_bom]
      rw [List.count_cons_self]

/-- C7 witness: removing the one leading BOM of a two-character content. -/
theorem normalize_bom_removal_witness :
    (normalizeContent [bomChar, 'a'] true true).1.count bomChar + 1 =
      ([bomChar, 'a'] : List Char).count bomChar :=
  ((normalize_bom_removal [bomChar, 'a'] true true).2 rfl rfl).2.2

/-! ### Lemmas on the path sort of `handle_compute_digest` -/

theorem char_toNat_inj {a b : Char} (h : a.toNat = b.toNat) : a = b :=
  Char.ext (UInt32.ext h)

theorem string_data_inj {s t : String} (h : s.data = t.data) : s = t := by
  cases s
  cases t
  simp_all

theorem strLt_asymm : ∀ u v : List Char, strLtChars u v = true → strLtChars v u = false := by
  intro u
  induction u with
  | nil =>
    intro v h
    cases v with
    | nil => simp [strLtChars] at h
    | cons b bs => rfl
  | cons a as ih =>
    intro v h
    cases v with
    | nil => simp [strLtChars] at h
    | cons b bs =>
      by_cases hab : a = b
      · subst hab
        simp only [strLtChars, if_pos rfl] at h ⊢
        exact ih bs h
      · rw [show strLtChars (a :: as) (b :: bs) = decide (a.toNat < b.toNat) by
          simp [strLtChars, hab]] at h
        have hlt : a.toNat < b.toNat := of_decide_eq_true h
        have hba : ¬b = a := fun he => hab he.symm
        rw [show strLtChars (b :: bs) (a :: as) = decide (b.toNat < a.toNat) by
          simp [strLtChars, hba]]
        simp
        omega

theorem strLt_conn : ∀ u v : List Char, strLtChars u v = false → strLtChars v u = false →
    u = v := by
  intro u
  induction u with
  | nil =>
    intro v h1 h2
    cases v with
    | nil => rfl
    | cons b bs => simp [strLtChars] at h1
  | cons a as ih =>
    intro v h1 h2
    cases v with
    | nil => simp [strLtChars] at h2
    | cons b bs =>
      by_cases hab : a = b
      · subst hab
        simp only [strLtChars, if_pos rfl] at h1 h2
        rw [ih bs h1 h2]
      · rw [show strLtChars (a :: as) (b :: bs) = decide (a.toNat < b.toNat) by
          simp [strLtChars, hab]] at h1
        have hba : ¬b = a := fun he => hab he.symm
        rw [show strLtChars (b :: bs) (a :: as) = decide (b.toNat < a.toNat) by
          simp [strLtChars, hba]] at h2
        simp at h1 h2
        exact absurd (char_toNat_inj (by omega)) hab

theorem strLt_trans : ∀ u v w : List Char, strLtChars u v = true → strLtChars v w = true →
    strLtChars u w = true := by
  intro u
  induction u with
  | nil =>
    intro v w h1 h2
    cases v with
    | nil => simp [strLtChars] at h1
    | cons b bs =>
      cases w with
      | nil => simp [strLtChars] at h2
      | cons c cs => rfl
  | cons a as ih =>
    intro v w h1 h2
    cases v with
    | nil => simp [strLtChars] at h1
    | cons b bs =>
      cases w with
      | nil => simp [strLtChars] at h2
      | cons c cs =>
        by_cases hab : a = b
        · subst hab
          simp only [strLtChars, if_pos rfl] at h1
          by_cases hbc : a = c
          · subst hbc
            simp only [strLtChars, if_pos rfl] at h2 ⊢
            exact ih bs cs h1 h2
          · rw [show strLtChars (a :: bs) (c :: cs) = decide (a.toNat < c.toNat) by
              simp [strLtChars, hbc]] at h2
            rw [show strLtChars (a :: as) (c :: cs) = decide (a.toNat < c.toNat) by
              simp [strLtChars, hbc]]
            exact h2
        · rw [show strLtChars (a :: as) (b :: bs) = decide (a.toNat < b.toNat) by
            simp [strLtChars, hab]] at h1
          have hlt1 : a.toNat < b.toNat := of_decide_eq_true h1
          by_cases hbc : b = c
          · subst hbc
            rw [show strLtChars (a :: as) (b :: cs) = decide (a.toNat < b.toNat) by
              simp [strLtChars, hab]]
            simpa using hlt1
          · rw [show strLtChars (b :: bs) (c :: cs) = decide (b.toNat < c.toNat) by
              simp [strLtChars, hbc]] at h2
            have hlt2 : b.toNat < c.toNat := of_decide_eq_true h2
            have hac : a ≠ c := fun he => by
              subst he
              omega
            rw [show strLtChars (a :: as) (c :: cs) = decide (a.toNat < c.toNat) by
              simp [strLtChars, hac]]
            simp
            omega

theorem pathLt_asymm {x y : FileInfo} (h : pathLt x y = true) : pathLt y x = false :=
  strLt_asymm _ _ h

theorem pathLt_conn {x y : FileInfo} (h1 : pathLt x y = false) (h2 : pathLt y x = false) :
    x.path = y.path :=
  string_data_inj (strLt_conn _ _ h1 h2)

/-- Transitivity of the non-strict path order `¬(· before ·)`. -/
theorem pathLe_trans {x y z : FileInfo} (h1 : pathLt y x = false) (h2 : pathLt z y = false) :
    pathLt z x = false := by
  cases hzx : pathLt z x with
  | false => rfl
  | true =>
    exfalso
    cases hxy : pathLt x y with
    | true =>
      have hzy : strLtChars z.path.data y.path.data = true := strLt_trans _ _ _ hzx hxy
      unfold pathLt at h2
      rw [hzy] at h2
      cases h2
    | false =>
      have hpeq : x.path = y.path := pathLt_conn hxy h1
      have : pathLt z y = true := by
        unfold pathLt at hzx ⊢
        rw [← hpeq]
        exact hzx
      rw [this] at h2
      cases h2

theorem pathInsert_perm (x : FileInfo) (l : List FileInfo) :
    List.Perm (pathInsert x l) (x :: l) := by
  induction l with
  | nil => exact List.Perm.refl _
  | cons y ys ih =>
    by_cases h : pathLt y x = true
    · simp only [pathInsert, if_pos h]
      exact (List.Perm.cons y ih).trans (List.Perm.swap x y ys)
    · simp only [pathInsert, if_neg h]
      exact List.Perm.refl _

theorem sortByPath_perm (l : List FileInfo) : List.Perm (sortByPath l) l := by
  induction l with
  | nil => exact List.Perm.refl _
  | cons x xs ih =>
    exact (pathInsert_perm x (sortByPath xs)).trans (List.Perm.cons x ih)

theorem pathInsert_sorted (x : FileInfo) (l : List FileInfo)
    (h : List.Pairwise (fun a b => pathLt b a = false) l) :
    List.Pairwise (fun a b => pathLt b a = false) (pathInsert x l) := by
  induction l with
  | nil => simp [pathInsert]
  | cons y ys ih =>
    rcases List.pairwise_cons.mp h with ⟨hy, hys⟩
    by_cases hlt : pathLt y x = true
    · simp only [pathInsert, if_pos hlt]
      refine List.pairwise_cons.mpr ⟨?_, ih hys⟩
      intro b hb
      have hb2 : b ∈ x :: ys := (pathInsert_perm x ys).mem_iff.mp hb
      rcases List.mem_cons.mp hb2 with hb2 | hb2
      · exact hb2 ▸ pathLt_asymm hlt
      · exact hy b hb2
    · have hyx : pathLt y x = false := by
        cases hc : pathLt y x with
        | false => rfl
        | true => exact absurd hc hlt
      simp only [pathInsert, if_neg hlt]
      refine List.pairwise_cons.mpr ⟨?_, h⟩
      intro b hb
      rcases List.mem_cons.mp hb with hb | hb
      · exact hb ▸ hyx
      · exact pathLe_trans hyx (hy b hb)

theorem sortByPath_sorted (l : List FileInfo) :
    List.Pairwise (fun a b => pathLt b a = false) (sortByPath l) := by
  induction l with
  | nil => simp [sortByPath]
  | cons x xs ih => exact pathInsert_sorted x (sortByPath xs) ih

/-- Two lists that are permutations of each other and both strictly sorted
    on the path key are equal. -/
theorem pairwise_lt_perm_eq :
    ∀ (l1 l2 : List FileInfo), List.Pairwise (fun a b => pathLt a b = true) l1 →
      List.Pairwise (fun a b => pathLt a b = true) l2 → List.Perm l1 l2 → l1 = l2 := by
  intro l1
  induction l1 with
  | nil =>
    intro l2 _ _ hp
    exact (hp.symm.eq_nil).symm
  | cons a t1 ih =>
    intro l2 h1 h2 hp
    cases l2 with
    | nil => exact absurd hp.eq_nil (by simp)
    | cons b t2 =>
      by_cases hab : a = b
      · subst hab
        rcases List.pairwise_cons.mp h1 with ⟨_, h1t⟩
        rcases List.pairwise_cons.mp h2 with ⟨_, h2t⟩
        rw [ih t2 h1t h2t (hp.cons_inv)]
      · exfalso
        have ha2 : a ∈ t2 := by
          have := hp.mem_iff.mp (List.mem_cons_self a t1)
          rcases List.mem_cons.mp this with h | h
          · exact absurd h hab
          · exact h
        have hb1 : b ∈ t1 := by
          have := hp.symm.mem_iff.mp (List.mem_cons_self b t2)
          rcases List.mem_cons.mp this with h | h
          · exact absurd h.symm hab
          · exact h
        have hba : pathLt b a = true := (List.pairwise_cons.mp h2).1 a ha2
        have hab2 : pathLt a b = true := (List.pairwise_cons.mp h1).1 b hb1
        have := pathLt_asymm hba
        rw [this] at hab2
        cases hab2

/-- C3 counterexample: two records with the same path `"a"` but different
    sizes and mtimes. The stable path sort preserves their input order, so
    the two orderings hash different byte strings and produce different
    digests, refuting permutation invariance for arbitrary record lists. -/
theorem digest_perm_counterexample :
    List.Perm [fiDupA, fiDupB] [fiDupB, fiDupA] ∧
      handle_compute_digest_core [fiDupA, fiDupB] ≠
        handle_compute_digest_core [fiDupB, fiDupA] := by
  constructor
  · exact List.Perm.swap fiDupB fiDupA []
  · decide

/-- C3 (amended): for every list of records whose paths are pairwise
    distinct, `handle_compute_digest` returns the same digest on every
    permutation of the list. -/
theorem digest_perm_invariant_of_distinct (l1 l2 : List FileInfo)
    (hd : List.Pairwise (fun a b => a.path ≠ b.path) l1) (hp : List.Perm l1 l2) :
    handle_compute_digest_core l1 = handle_compute_digest_core l2 := by
  have hsymm : ∀ {x y : FileInfo}, x.path ≠ y.path → y.path ≠ x.path :=
    fun h => h.symm
  have hstrict : ∀ {m : List FileInfo}, List.Pairwise (fun a b => pathLt b a = false) m →
      List.Pairwise (fun a b => a.path ≠ b.path) m →
      List.Pairwise (fun a b => pathLt a b = true) m := by
    intro m hle hne
    exact (hle.and hne).imp (fun {a b} h => by
      rcases h with ⟨hba, hne2⟩
      cases hc : pathLt a b with
      | true => rfl
      | false => exact absurd (pathLt_conn hc hba) hne2)
  have hd1 : List.Pairwise (fun a b => a.path ≠ b.path) (sortByPath l1) :=
    ((sortByPath_perm l1).pairwise_iff hsymm).mpr hd
  have hd2 : List.Pairwise (fun a b => a.path ≠ b.path) (sortByPath l2) :=
    ((sortByPath_perm l2).pairwise_iff hsymm).mpr ((hp.pairwise_iff hsymm).mp hd)
  have hs1 := hstrict (sortByPath_sorted l1) hd1
  have hs2 := hstrict (sortByPath_sorted l2) hd2
  have hperm : List.Perm (sortByPath l1) (sortByPath l2) :=
    (sortByPath_perm l1).trans (hp.trans (sortByPath_perm l2).symm)
  have hs : sortByPath l1 = sortByPath l2 := pairwise_lt_perm_eq _ _ hs1 hs2 hperm
  unfold handle_compute_digest_core digestInput
  rw [hs]

/-- C3 witness: the spec's example records, in both orders, digest
    identically. -/
theorem digest_perm_invariant_witness :
    handle_compute_digest_core [fiBmd, fiAmd] = handle_compute_digest_core [fiAmd, fiBmd] :=
  digest_perm_invariant_of_distinct [fiBmd, fiAmd] [fiAmd, fiBmd] (by decide)
    (List.Perm.swap fiAmd fiBmd [])

/-- C4: `handle_compute_digest` hashes exactly the concatenation of
    `"path|size|mtime\n"` lines over the path-sorted records (for valid
    UTF-8 the byte order Rust compares with coincides with the character
    order used here), rendered as the lowercase-hex SHA-256 of those UTF-8
    bytes; the empty list yields the SHA-256 of the empty byte string (the
    well-known constant), and the spec's two-record example hashes exactly
    `"a.md|1|2\nb.md|5|10\n"`. -/
theorem compute_digest_sorted_concat_sha256 :
    (∀ files : List FileInfo, ∃ sorted : List FileInfo,
      List.Perm sorted files ∧
      List.Pairwise (fun a b => pathLt b a = false) sorted ∧
      handle_compute_digest_core files =
        sha256hex (strBytes (String.join (sorted.map digestLine)))) ∧
    handle_compute_digest_core [] =
      "e3b0c44298fc1c149afbf4c8996fb92427ae41e4649b934ca495991b7852b855" ∧
    digestInput [fiBmd, fiAmd] = "a.md|1|2\nb.md|5|10\n" ∧
    handle_compute_digest_core [fiBmd, fiAmd] =
      sha256hex (strBytes "a.md|1|2\nb.md|5|10\n") := by
  refine ⟨?_, by decide, by decide, by decide⟩
  intro files
  exact ⟨sortByPath files, sortByPath_perm files, sortByPath_sorted files, rfl⟩

/-! ### Lemmas for the pool batch claim -/

theorem workerOutput_id (render : String → Except String String) (t : TransformTask)
    (d : Nat) : (workerOutput render t d).id = t.id := by
  cases hr : render t.content with
  | ok html => simp [workerOutput, Worker.process_task, finishDuration, hr, TaskResult.id]
  | error e => simp [workerOutput, Worker.process_task, finishDuration, hr, TaskResult.id]

theorem zipWith_workerOutput_map_id (render : String → Except String String) :
    ∀ (ts : List TransformTask) (ds : List Nat), ds.length = ts.length →
      (List.zipWith (workerOutput render) ts ds).map TaskResult.id =
        ts.map TransformTask.id := by
  intro ts
  induction ts with
  | nil =>
    intro ds h
    simp
  | cons t ts ih =>
    intro ds h
    cases ds with
    | nil => simp at h
    | cons d ds =>
      simp only [List.zipWith_cons_cons, List.map_cons, workerOutput_id]
      rw [ih ds (by simpa using h)]

theorem mem_zipWith {f : α → β → γ} :
    ∀ (l1 : List α) (l2 : List β) (c : γ), c ∈ List.zipWith f l1 l2 →
      ∃ a ∈ l1, ∃ b ∈ l2, c = f a b := by
  intro l1
  induction l1 with
  | nil =>
    intro l2 c h
    simp at h
  | cons x xs ih =>
    intro l2 c h
    cases l2 with
    | nil => simp at h
    | cons y ys =>
      simp only [List.zipWith_cons_cons, List.mem_cons] at h
      rcases h with h | h
      · exact ⟨x, List.mem_cons_self _ _, y, List.mem_cons_self _ _, h⟩
      · obtain ⟨a, ha, b, hb, he⟩ := ih _ _ h
        exact ⟨a, List.mem_cons_of_mem _ ha, b, List.mem_cons_of_mem _ hb, he⟩

/-- C1: for every batch of N tasks, when the renderer succeeds on every
    task, any outcome of `ThreadPool::process_batch` has exactly N results,
    the set of result ids equals the set of submitted task ids, and every
    result is a success. -/
theorem process_batch_success_id_set
    (render : String → Except String String) (num_workers : Nat) (b : TaskBatch)
    (results : List TaskResult)
    (hok : ∀ t ∈ b.tasks, (render t.content).isOk = true)
    (hout : processBatchOutcome render num_workers b results) :
    results.length = b.tasks.length ∧
    (∀ s, s ∈ results.map TaskResult.id ↔ s ∈ b.tasks.map TransformTask.id) ∧
    (∀ r ∈ results, r.is_success = true) := by
  obtain ⟨durs, hlen, hperm⟩ := hout
  have hsent : sentTasks b num_workers = b.tasks := by
    unfold sentTasks
    exact split_flatten b num_workers
  have hzlen : (List.zipWith (workerOutput render) (sentTasks b num_workers) durs).length =
      b.tasks.length := by
    rw [List.length_zipWith, hlen, min_self, hsent]
  refine ⟨?_, ?_, ?_⟩
  · rw [hperm.length_eq, hzlen]
  · intro s
    have hmap := hperm.map TaskResult.id
    rw [zipWith_workerOutput_map_id render _ _ hlen, hsent] at hmap
    exact hmap.mem_iff
  · intro r hr
    have hr2 : r ∈ List.zipWith (workerOutput render) (sentTasks b num_workers) durs :=
      hperm.subset hr
    obtain ⟨t, ht, d, _, he⟩ := mem_zipWith _ _ _ hr2
    have htask : t ∈ b.tasks := hsent ▸ ht
    have hok2 := hok t htask
    obtain ⟨html, hhtml⟩ : ∃ v, render t.content = .ok v := by
      cases hh : render t.content with
      | ok v => exact ⟨v, rfl⟩
      | error e =>
        rw [hh] at hok2
        simp [Except.isOk, Except.toBool] at hok2
    subst he
    simp [workerOutput, Worker.process_task, finishDuration, hhtml, TaskResult.is_success]

/-- C1 witness: a concrete two-task batch on one worker with an
    always-succeeding renderer and a concrete completion. -/
theorem process_batch_success_id_set_witness :
    wResults.length = wBatch.tasks.length ∧
    (∀ s, s ∈ wResults.map TaskResult.id ↔ s ∈ wBatch.tasks.map TransformTask.id) ∧
    (∀ r ∈ wResults, r.is_success = true) :=
  process_batch_success_id_set wRender 1 wBatch wResults (fun _ _ => rfl)
    ⟨[3, 5], rfl, List.Perm.refl _⟩

/-- C8: an unparseable nonblank line produces exactly one parse-error
    response (with the placeholder string id "null" and code -32700), the
    loop continues with the remaining lines unchanged, and a well-formed
    request on a following line still receives its normal response. -/
theorem dispatcher_parse_error_isolation (ext : Externals) (bad : String)
    (rest : List String)
    (hblank : (trimChars bad.data).isEmpty = false)
    (hbad : ext.parseLine bad = none) :
    processLines ext (bad :: rest) = create_parse_error :: processLines ext rest ∧
    create_parse_error.id = RpcId.str "null" ∧
    create_parse_error.error.map RpcError.code = some PARSE_ERROR ∧
    (∀ (good : String) (r : RpcRequest) (resp : RpcResponse) (rest2 : List String),
      (trimChars good.data).isEmpty = false →
      ext.parseLine good = some (RpcMessage.request r) →
      handle_request ext r = some resp →
      processLines ext (bad :: good :: rest2) =
        create_parse_error :: resp :: processLines ext rest2) := by
  refine ⟨?_, rfl, rfl, ?_⟩
  · simp [processLines, hblank, hbad]
  · intro good r resp rest2 hg hpg hhr
    simp [processLines, hblank, hbad, hg, hpg, hhr]

/-- C8 witness: a bad line followed by a recognizable `ping` request yields
    the parse-error response and then the normal ping response. -/
theorem dispatcher_parse_error_isolation_witness :
    processLines wExternals ["bad", "good"] =
      [create_parse_error, handle_ping (RpcId.num 1)] :=
  (dispatcher_parse_error_isolation wExternals "bad" ["good"] (by decide) rfl).2.2.2
    "good" ⟨"2.0", RpcId.num 1, "ping", none⟩ (handle_ping (RpcId.num 1)) [] (by decide)
    rfl rfl

/-- C10: whenever the transform params decode successfully, the transform
    handler returns a result response and never a TRANSFORM_ERROR error
    response: `transform_markdown` and `transform_mdx` return `Ok` on every
    input, so the error branch after rendering is unreachable. -/
theorem transform_never_error_on_decoded_params
    (parseYaml : String → Option Json) (render : String → String)
    (decTransform : Json → Except String TransformRequest) (id : RpcId) (p : Json)
    (req : TransformRequest) (hdec : decTransform p = Except.ok req) :
    (∀ (content file : String), (transform_markdown render content file).isOk = true) ∧
    (∀ (content file : String), (transform_mdx content file).isOk = true) ∧
    (handle_transform parseYaml render decTransform id (some p)).error = none ∧
    (∃ res, handle_transform parseYaml render decTransform id (some p) =
      create_response id res) := by
  have hmain : ∃ res, handle_transform parseYaml render decTransform id (some p) =
      create_response id res := by
    simp only [handle_transform, hdec]
    by_cases hm : endsWithSeq (".mdx").data req.file.data = true
    · simp only [hm, if_true, transform_mdx]
      exact ⟨_, rfl⟩
    · simp only [hm, if_false, transform_markdown]
      exact ⟨_, rfl⟩
  obtain ⟨res, hres⟩ := hmain
  exact ⟨fun _ _ => rfl, fun _ _ => rfl, by rw [hres]; rfl, ⟨res, hres⟩⟩

/-- C10 witness: a decoder that accepts the payload; the handler's response
    carries no error. -/
theorem transform_never_error_witness :
    (handle_transform (fun _ => none) (fun s => s) wDecTransform (RpcId.num 7)
      (some Json.null)).error = none :=
  (transform_never_error_on_decoded_params (fun _ => none) (fun s => s) wDecTransform
    (RpcId.num 7) Json.null ⟨"a.md", "hi", none⟩ rfl).2.2.1
